import Mathlib

/-!
Shallow embedding of the Commit Intelligence Engine of the `smart-committer`
repository (`src/src/index.ts`).  Pure logic is translated
function-for-function; external collaborators (git queries, backend API
transports, the file system and the interactive terminal) appear as explicit
inputs of the embedded functions.
-/

namespace SmartCommitter

/-! ### Generation backends and the ensemble path (`src/src/index.ts` 793-859) -/

/-- Outcome of one backend invocation: `generateCommitMessage` either resolves
with the generated text or rejects with a `GenerationError` message. -/
inductive GenResult where
  | ok (text : String)
  | err (msg : String)
deriving DecidableEq

/-- Whether a backend invocation succeeded. -/
def GenResult.isOk : GenResult → Bool
  | .ok _ => true
  | .err _ => false

/-- Line 832: `messages.filter((msg): msg is string => msg !== null)` — the
settled outcomes of all backend promises with failed invocations (mapped to
`null` by the per-promise `catch` of line 825) removed, in configured backend
order, because `Promise.all` preserves argument order. -/
def validMessages (results : List GenResult) : List String :=
  results.filterMap fun r =>
    match r with
    | .ok t => some t
    | .err _ => none

/-- The first successful candidate in configured backend order. -/
def firstSuccess : List GenResult → Option String
  | [] => none
  | .ok t :: _ => some t
  | .err _ :: rest => firstSuccess rest

/-- Lines 831-855: keep the successes and pick `validMessages[0]`; when no
candidate succeeded the code throws, the surrounding `catch` of line 851
fires, and the originally requested provider is invoked once more (`retry`
below), whose outcome then decides the whole call. -/
def ensembleResolve (results : List GenResult) (retry : GenResult) : Except String String :=
  match validMessages results with
  | [] =>
    match retry with
    | .ok t => .ok t
    | .err e => .error e
  | t :: _ => .ok t

/-- The two backend services of the implementation (`configSchema.model`). -/
inductive Model where
  | claude
  | openai
deriving DecidableEq

/-- The service other than a given one. -/
def Model.other : Model → Model
  | .claude => .openai
  | .openai => .claude

/-- Whether the API key for a service is present in the environment. -/
def keyAvail (m : Model) (claudeKey openaiKey : Bool) : Bool :=
  match m with
  | .claude => claudeKey
  | .openai => openaiKey

/-- Lines 801-821: the provider list built in ensemble mode — a secondary
provider for each service other than the main one whose API key is available,
then the main provider appended last. -/
def buildProviders (mainModel : Model) (claudeKey openaiKey : Bool) : List Model :=
  (if mainModel ≠ .claude ∧ claudeKey then [.claude] else []) ++
    (if mainModel ≠ .openai ∧ openaiKey then [.openai] else []) ++ [mainModel]

/-- The whole ensemble path of `SmartCommitter.processSingleCommit`: fan out
over the built provider list against the identical context, then resolve.
`invoke` gives each provider invocation's outcome and `retry` the outcome of
the fallback re-invocation of the main provider performed by the `catch` of
line 851. -/
def ensembleGenerate (mainModel : Model) (claudeKey openaiKey : Bool)
    (invoke : Model → GenResult) (retry : GenResult) : Except String String :=
  ensembleResolve ((buildProviders mainModel claudeKey openaiKey).map invoke) retry

/-- A fan-out in which every configured backend fails. -/
def allFailInvoke : Model → GenResult := fun _ => .err "boom"

lemma validMessages_nil_of_allFail (results : List GenResult)
    (h : ∀ r ∈ results, r.isOk = false) : validMessages results = [] := by
  induction results with
  | nil => rfl
  | cons r rest ih =>
    cases r with
    | ok t =>
      have ht := h (GenResult.ok t) (List.mem_cons_self _ _)
      simp [GenResult.isOk] at ht
    | err e =>
      simp only [validMessages, List.filterMap_cons]
      exact ih fun x hx => h x (by simp [hx])

/-- C1 counterexample: with a single configured backend invocation that fails
and a fallback retry that succeeds, the ensemble call succeeds with the
retry's text — it does not fail with `AllBackendsFailed`, refuting the claim
that the degenerate single-backend retry never applies to the outcome where
all individual backends failed. -/
theorem c1_counterexample :
    ensembleGenerate Model.claude false true allFailInvoke (GenResult.ok "retried") =
      Except.ok "retried" := rfl

/-- C1 (amended): when every configured backend invocation fails in ensemble
mode, the internal all-backends-failed error is caught and the orchestrator
retries once with the single originally-requested backend; the call then
returns that retry's text when it succeeds, and fails with the retry's error
— returning no partial text — when it fails too. -/
theorem c1_claim (results : List GenResult) (retry : GenResult)
    (h : ∀ r ∈ results, r.isOk = false) :
    ensembleResolve results retry =
      (match retry with
       | .ok t => Except.ok t
       | .err e => Except.error e) := by
  simp only [ensembleResolve, validMessages_nil_of_allFail results h]

/-- C1 witness: two failing backends and a failing retry make the whole call
fail with the retry's error. -/
theorem c1_witness :
    ensembleResolve [GenResult.err "a", GenResult.err "b"] (GenResult.err "e") =
      Except.error "e" :=
  c1_claim [GenResult.err "a", GenResult.err "b"] (GenResult.err "e") (by decide)

/-- C2: in ensemble mode, whenever at least one backend invocation succeeds,
each individual failure is dropped as an absent candidate without aborting
the others, the final message is the text of the first successful backend in
the fixed configured order, and that text heads the visible candidate list. -/
theorem c2_claim (results : List GenResult) (retry : GenResult) (t : String)
    (h : firstSuccess results = some t) :
    ensembleResolve results retry = Except.ok t ∧
      (validMessages results).head? = some t := by
  induction results with
  | nil => simp [firstSuccess] at h
  | cons r rest ih =>
    cases r with
    | ok s =>
      simp only [firstSuccess, Option.some.injEq] at h
      subst h
      exact ⟨rfl, rfl⟩
    | err e =>
      simp only [firstSuccess] at h
      have := ih h
      constructor
      · simpa only [ensembleResolve, validMessages, List.filterMap_cons] using this.1
      · simpa only [validMessages, List.filterMap_cons] using this.2

/-- C2 witness: three configured backends where the second fails and the
first and third succeed — the final message is the first backend's text and
both successes are surfaced as visible candidates. -/
theorem c2_witness :
    ensembleResolve [GenResult.ok "first", GenResult.err "down", GenResult.ok "third"]
        (GenResult.err "r") = Except.ok "first" ∧
      validMessages [GenResult.ok "first", GenResult.err "down", GenResult.ok "third"] =
        ["first", "third"] :=
  ⟨(c2_claim [GenResult.ok "first", GenResult.err "down", GenResult.ok "third"]
      (GenResult.err "r") "first" rfl).1, rfl⟩

/-- A concrete fan-out in which both services succeed with distinct texts. -/
def bothOkInvoke : Model → GenResult
  | .claude => .ok "main text"
  | .openai => .ok "secondary text"

/-- C10: in ensemble mode the originally-requested main provider is appended
last, after the secondary provider built from the other service's available
API key; hence whenever both the secondary and the main provider succeed, the
final message is the secondary provider's text. -/
theorem c10_claim (m : Model) (ckey okey : Bool) (invoke : Model → GenResult)
    (retry : GenResult) (s t : String)
    (hk : keyAvail m.other ckey okey = true)
    (hs : invoke m.other = GenResult.ok s) (ht : invoke m = GenResult.ok t) :
    buildProviders m ckey okey = [m.other, m] ∧
      ensembleGenerate m ckey okey invoke retry = Except.ok s := by
  cases m with
  | claude =>
    simp only [Model.other, keyAvail] at hk hs
    refine ⟨by simp [buildProviders, hk, Model.other], ?_⟩
    simp [ensembleGenerate, buildProviders, hk, ensembleResolve, validMessages, hs, ht]
  | openai =>
    simp only [Model.other, keyAvail] at hk hs
    refine ⟨by simp [buildProviders, hk, Model.other], ?_⟩
    simp [ensembleGenerate, buildProviders, hk, ensembleResolve, validMessages, hs, ht]

/-- C10 witness: main provider Claude with the OpenAI key available and both
providers succeeding — the provider list is `[openai, claude]` and the final
message is the secondary (OpenAI) provider's text. -/
theorem c10_witness :
    buildProviders Model.claude false true = [Model.openai, Model.claude] ∧
      ensembleGenerate Model.claude false true bothOkInvoke (GenResult.err "r") =
        Except.ok "secondary text" :=
  c10_claim Model.claude false true bothOkInvoke (GenResult.err "r")
    "secondary text" "main text" rfl rfl rfl

/-! ### Scope inference (`GitUtils.detectScopeFromDiff`, lines 325-425) -/

/-- JavaScript single-character `String.prototype.split`: splits at every
occurrence of the separator, keeping empty pieces, and yields `[""]` on the
empty string. -/
def splitOnChar (sep : Char) : List Char → List (List Char)
  | [] => [[]]
  | c :: rest =>
    if c = sep then [] :: splitOnChar sep rest
    else
      match splitOnChar sep rest with
      | [] => [[c]]
      | h :: t => (c :: h) :: t

/-- Lines 345-356: the grouping key of one touched path — the first `/`
segment when the path contains a separator, otherwise
`filePath.split('.')[0]`, the part of the filename before its first `.`. -/
def groupKey (p : String) : String :=
  let parts := splitOnChar '/' p.toList
  if parts.length > 1 then ⟨parts.headD []⟩
  else ⟨(splitOnChar '.' p.toList).headD []⟩

/-- Lines 359-362 (and 398-401): `count[key] = (count[key] || 0) + 1` on a
JavaScript object, embedded as an insertion-ordered association list — the
entry holding the key is bumped in place, a fresh key is appended last. -/
def incr : List (String × Nat) → String → List (String × Nat)
  | [], k => [(k, 1)]
  | (k', c) :: rest, k =>
    if k' = k then (k', c + 1) :: rest
    else (k', c) :: incr rest k

/-- Lookup of a counter value, `0` when the key is absent. -/
def cnt : List (String × Nat) → String → Nat
  | [], _ => 0
  | (k', c) :: rest, k => if k' = k then c else cnt rest k

/-- One step of the most-frequent-entry scan of lines 364-373: keep the first
entry whose count strictly exceeds the running maximum. -/
def maxStep (acc : Option String × Nat) (e : String × Nat) : Option String × Nat :=
  if e.2 > acc.2 then (some e.1, e.2) else acc

/-- Lines 364-373 (and 403-412): single scan over `Object.entries` starting
from `(null, 0)`. -/
def scanMax (m : List (String × Nat)) : Option String × Nat :=
  m.foldl maxStep (none, 0)

/-- Line 381: the fixed priority list of conventional top-level directories. -/
def specialDirs : List String :=
  ["src", "lib", "test", "tests", "components", "pages", "utils", "config"]

/-- Lines 388-394: the second-level entry a path contributes under `dir` —
its second `/` segment, provided the path has a separator, its first segment
is `dir`, and the second segment is non-empty (`parts[1]` must be truthy). -/
def nextLevelOf (dir : String) (p : String) : Option String :=
  match splitOnChar '/' p.toList with
  | a :: b :: _ => if (⟨a⟩ : String) = dir ∧ b ≠ [] then some ⟨b⟩ else none
  | _ => none

/-- Lines 380-422: the special-directory fallback loop of
`detectScopeFromDiff`. -/
def specialLoop (filePaths dirNames : List String) : List String → Option String
  | [] => none
  | dir :: rest =>
    if dir ∈ dirNames ∧ 3 * (dirNames.filter (· == dir)).length > filePaths.length then
      let nextLevelDirs := filePaths.filterMap (nextLevelOf dir)
      if nextLevelDirs.length > 0 then
        let res := scanMax (nextLevelDirs.foldl incr [])
        if res.1.getD "" ≠ "" ∧ 2 * res.2 > nextLevelDirs.length then
          some (dir ++ "/" ++ res.1.getD "")
        else some dir
      else some dir
    else specialLoop filePaths dirNames rest

/-- Lines 340-424: scope inference over the extracted touched paths.  The
step-3 guard of line 376, `commonDir && maxCount > filePaths.length / 2`,
requires a truthy (non-null, non-empty) key and a strict majority. -/
def detectScopeFromPaths (filePaths : List String) : Option String :=
  if filePaths.length = 0 then none
  else
    let dirNames := filePaths.map groupKey
    let res := scanMax (dirNames.foldl incr [])
    if res.1.getD "" ≠ "" ∧ 2 * res.2 > filePaths.length then res.1
    else specialLoop filePaths dirNames specialDirs

/-- Lines 327-338: extract the touched paths from the unified diff text. -/
def extractFilePaths (diff : String) : List String :=
  (splitOnChar '\n' diff.toList).filterMap fun line =>
    if "--- a/".toList.isPrefixOf line || "+++ b/".toList.isPrefixOf line then
      let fp : String := ⟨line.drop 6⟩
      if fp ≠ "" ∧ fp ≠ "/dev/null" then some fp else none
    else none

/-- `GitUtils.detectScopeFromDiff`, lines 325-425, end to end. -/
def detectScopeFromDiff (diff : String) : Option String :=
  detectScopeFromPaths (extractFilePaths diff)

/-! #### Association-counter and scan lemmas -/

lemma cnt_incr (m : List (String × Nat)) (k k' : String) :
    cnt (incr m k) k' = cnt m k' + if k = k' then 1 else 0 := by
  induction m with
  | nil => by_cases h : k = k' <;> simp [incr, cnt, h]
  | cons e rest ih =>
    obtain ⟨k₀, c₀⟩ := e
    by_cases h0 : k₀ = k
    · subst h0
      by_cases h1 : k₀ = k' <;> simp [incr, cnt, h1]
    · by_cases h1 : k₀ = k'
      · subst h1
        have hkk : ¬ k = k₀ := fun h => h0 h.symm
        simp [incr, cnt, h0, hkk]
      · simp [incr, cnt, h0, h1, ih]

lemma cnt_foldl_incr (l : List String) (m : List (String × Nat)) (k : String) :
    cnt (l.foldl incr m) k = cnt m k + l.count k := by
  induction l generalizing m with
  | nil => simp
  | cons a rest ih =>
    simp only [List.foldl_cons, ih, cnt_incr, List.count_cons]
    by_cases h : a = k
    · simp [h]
      omega
    · simp [h]

lemma mem_keys_incr (m : List (String × Nat)) (k x : String) :
    x ∈ (incr m k).map Prod.fst ↔ x ∈ m.map Prod.fst ∨ x = k := by
  induction m with
  | nil => simp [incr]
  | cons e rest ih =>
    obtain ⟨k₀, c₀⟩ := e
    by_cases h0 : k₀ = k
    · subst h0
      simp [incr]
      tauto
    · simp [incr, h0, ih]
      tauto

lemma nodup_keys_incr (m : List (String × Nat)) (k : String)
    (hm : (m.map Prod.fst).Nodup) : ((incr m k).map Prod.fst).Nodup := by
  induction m with
  | nil => simp [incr]
  | cons e rest ih =>
    obtain ⟨k₀, c₀⟩ := e
    simp only [List.map_cons, List.nodup_cons] at hm
    by_cases h0 : k₀ = k
    · subst h0
      simpa [incr, List.nodup_cons] using hm
    · simp only [incr, if_neg h0, List.map_cons, List.nodup_cons]
      refine ⟨fun hmem => ?_, ih hm.2⟩
      rcases (mem_keys_incr rest k k₀).mp hmem with h | h
      · exact hm.1 h
      · exact h0 h

lemma nodup_keys_foldl (l : List String) (m : List (String × Nat))
    (hm : (m.map Prod.fst).Nodup) : ((l.foldl incr m).map Prod.fst).Nodup := by
  induction l generalizing m with
  | nil => exact hm
  | cons a rest ih => exact ih _ (nodup_keys_incr m a hm)

lemma mem_keys_foldl (l : List String) (m : List (String × Nat)) (x : String) :
    x ∈ (l.foldl incr m).map Prod.fst ↔ x ∈ m.map Prod.fst ∨ x ∈ l := by
  induction l generalizing m with
  | nil => simp
  | cons a rest ih =>
    simp only [List.foldl_cons, ih, mem_keys_incr, List.mem_cons]
    tauto

lemma mem_value_eq_cnt (m : List (String × Nat)) (hm : (m.map Prod.fst).Nodup)
    (k : String) (c : Nat) (h : (k, c) ∈ m) : cnt m k = c := by
  induction m with
  | nil => cases h
  | cons e rest ih =>
    obtain ⟨k₀, c₀⟩ := e
    simp only [List.map_cons, List.nodup_cons] at hm
    rcases List.mem_cons.mp h with h | h
    · injection h with hk hc
      subst hk
      simp [cnt, hc]
    · have hk : ¬ k₀ = k := by
        intro he
        subst he
        exact hm.1 (List.mem_map.mpr ⟨(k₀, c), h, rfl⟩)
      simp [cnt, hk, ih hm.2 h]

lemma mem_of_cnt_pos (m : List (String × Nat)) (k : String) (h : 0 < cnt m k) :
    (k, cnt m k) ∈ m := by
  induction m with
  | nil => simp [cnt] at h
  | cons e rest ih =>
    obtain ⟨k₀, c₀⟩ := e
    by_cases h0 : k₀ = k
    · subst h0
      simp [cnt]
    · simp only [cnt, if_neg h0] at h ⊢
      exact List.mem_cons_of_mem _ (ih h)

lemma foldl_maxStep_init_le (m : List (String × Nat)) (init : Option String × Nat) :
    init.2 ≤ (m.foldl maxStep init).2 := by
  induction m generalizing init with
  | nil => simp
  | cons e rest ih =>
    simp only [List.foldl_cons]
    by_cases h : e.2 > init.2
    · exact le_trans (le_of_lt h) (by simpa [maxStep, h] using ih (some e.1, e.2))
    · simpa [maxStep, h] using ih init

lemma foldl_maxStep_mem_le (m : List (String × Nat)) (init : Option String × Nat) :
    ∀ e ∈ m, e.2 ≤ (m.foldl maxStep init).2 := by
  induction m generalizing init with
  | nil => intro e he; cases he
  | cons a rest ih =>
    intro e he
    rcases List.mem_cons.mp he with h | h
    · subst h
      simp only [List.foldl_cons]
      by_cases hgt : e.2 > init.2
      · simpa [maxStep, hgt] using foldl_maxStep_init_le rest (some e.1, e.2)
      · have h1 : e.2 ≤ init.2 := le_of_not_lt hgt
        exact le_trans h1 (by simpa [maxStep, hgt] using foldl_maxStep_init_le rest init)
    · simp only [List.foldl_cons]
      exact ih _ e h

lemma foldl_maxStep_result (m : List (String × Nat)) (init : Option String × Nat) :
    m.foldl maxStep init = init ∨
      ∃ k c, (k, c) ∈ m ∧ m.foldl maxStep init = (some k, c) := by
  induction m generalizing init with
  | nil => exact Or.inl rfl
  | cons e rest ih =>
    simp only [List.foldl_cons]
    by_cases h : e.2 > init.2
    · rcases ih (some e.1, e.2) with h' | ⟨k, c, hm, h'⟩
      · exact Or.inr ⟨e.1, e.2, by simp, by simpa [maxStep, h] using h'⟩
      · exact Or.inr ⟨k, c, List.mem_cons_of_mem _ hm, by simpa [maxStep, h] using h'⟩
    · rcases ih init with h' | ⟨k, c, hm, h'⟩
      · exact Or.inl (by simpa [maxStep, h] using h')
      · exact Or.inr ⟨k, c, List.mem_cons_of_mem _ hm, by simpa [maxStep, h] using h'⟩

lemma countMap_mem (l : List String) (k : String) (c : Nat)
    (h : (k, c) ∈ l.foldl incr []) : k ∈ l ∧ c = l.count k := by
  constructor
  · have hk : k ∈ (l.foldl incr []).map Prod.fst := List.mem_map.mpr ⟨(k, c), h, rfl⟩
    rcases (mem_keys_foldl l [] k).mp hk with h' | h'
    · simp at h'
    · exact h'
  · have hn : ((l.foldl incr []).map Prod.fst).Nodup := nodup_keys_foldl l [] (by simp)
    have := mem_value_eq_cnt _ hn k c h
    rw [cnt_foldl_incr l [] k] at this
    simpa [cnt] using this.symm

lemma count_pair_le_length (l : List String) (k k' : String) (hne : k ≠ k') :
    l.count k + l.count k' ≤ l.length := by
  induction l with
  | nil => simp
  | cons a rest ih =>
    have hne' : k' ≠ k := fun he => hne he.symm
    simp only [List.count_cons, List.length_cons]
    by_cases h1 : a = k <;> by_cases h2 : a = k'
    · exact absurd (h1.symm.trans h2) hne
    · simp only [beq_iff_eq, h1, h2, hne, hne', if_true, if_false]
      omega
    · simp only [beq_iff_eq, h1, h2, hne, hne', if_true, if_false]
      omega
    · simp only [beq_iff_eq, h1, h2, hne, hne', if_true, if_false]
      omega

/-- A strict-majority key is found by the single most-frequent-entry scan. -/
lemma scanMax_majority (l : List String) (k : String)
    (hmaj : 2 * l.count k > l.length) :
    scanMax (l.foldl incr []) = (some k, l.count k) := by
  have hcle : l.count k ≤ l.length := List.count_le_length k l
  have hpos : 0 < l.count k := by omega
  have hcnt : cnt (l.foldl incr []) k = l.count k := by
    simpa [cnt] using cnt_foldl_incr l [] k
  have hmem : (k, l.count k) ∈ l.foldl incr [] := by
    rw [← hcnt]
    exact mem_of_cnt_pos _ _ (by omega)
  have hle : l.count k ≤ (scanMax (l.foldl incr [])).2 :=
    foldl_maxStep_mem_le _ _ (k, l.count k) hmem
  rcases foldl_maxStep_result (l.foldl incr []) (none, 0) with h | ⟨k', c', hmem', hres⟩
  · rw [scanMax] at hle ⊢
    rw [h] at hle
    omega
  · obtain ⟨hk'mem, hc'⟩ := countMap_mem l k' c' hmem'
    by_cases hkk : k' = k
    · subst hkk
      rw [scanMax, hres, hc']
    · exfalso
      have hsum : l.count k' + l.count k ≤ l.length := count_pair_le_length l k' k hkk
      have hlt : l.count k' < l.count k := by omega
      rw [scanMax] at hle
      rw [hres] at hle
      omega

/-! #### `splitOnChar` lemmas -/

lemma splitOnChar_ne_nil (sep : Char) (l : List Char) : splitOnChar sep l ≠ [] := by
  induction l with
  | nil => simp [splitOnChar]
  | cons c rest ih =>
    by_cases h : c = sep
    · simp [splitOnChar, h]
    · simp only [splitOnChar, if_neg h]
      rcases hs : splitOnChar sep rest with _ | _ <;> simp

lemma splitOnChar_headD (sep : Char) (l : List Char) :
    (splitOnChar sep l).headD [] = l.takeWhile (· != sep) := by
  induction l with
  | nil => rfl
  | cons c rest ih =>
    by_cases h : c = sep
    · subst h
      simp [splitOnChar, List.takeWhile_cons]
    · simp only [splitOnChar, if_neg h]
      rcases hs : splitOnChar sep rest with _ | ⟨hd, tl⟩
      · exact absurd hs (splitOnChar_ne_nil sep rest)
      · rw [hs] at ih
        simp only [List.headD] at ih
        simp [List.takeWhile_cons, h, ih]

lemma splitOnChar_head_getD (sep : Char) (l : List Char) :
    (splitOnChar sep l).head?.getD [] = l.takeWhile (· != sep) := by
  have h := splitOnChar_headD sep l
  rcases hs : splitOnChar sep l with _ | ⟨hd, tl⟩
  · exact absurd hs (splitOnChar_ne_nil sep l)
  · rw [hs] at h
    simpa using h

lemma splitOnChar_length_gt_one (sep : Char) (l : List Char) :
    1 < (splitOnChar sep l).length ↔ sep ∈ l := by
  induction l with
  | nil => simp [splitOnChar]
  | cons c rest ih =>
    by_cases h : c = sep
    · subst h
      have hne := splitOnChar_ne_nil c rest
      have hpos : 0 < (splitOnChar c rest).length := List.length_pos.mpr hne
      simp [splitOnChar]
      omega
    · simp only [splitOnChar, if_neg h]
      rcases hs : splitOnChar sep rest with _ | ⟨hd, tl⟩
      · exact absurd hs (splitOnChar_ne_nil sep rest)
      · rw [hs] at ih
        have hcs : ¬ sep = c := fun he => h he.symm
        simp only [List.length_cons, List.mem_cons, hcs, false_or] at ih ⊢
        exact ih

/-! #### Claims C3 and C5 -/

/-- C5 counterexample: the root-level file `a.test.ts` groups under `a`
(the part before the first dot), not under `a.test` as the claim states. -/
theorem c5_counterexample :
    groupKey "a.test.ts" = "a" ∧ groupKey "a.test.ts" ≠ "a.test" := by
  decide

/-- C5 (amended): the grouping key is the first path segment when the path
contains a separator, and otherwise the part of the filename before its
first dot — so `a.test.ts` groups under `a`. -/
theorem c5_claim (p : String) :
    groupKey p =
      ⟨if '/' ∈ p.toList then p.toList.takeWhile (· != '/')
        else p.toList.takeWhile (· != '.')⟩ := by
  unfold groupKey
  simp only [String.toList]
  by_cases h : '/' ∈ p.data
  · have hlen : 1 < (splitOnChar '/' p.data).length :=
      (splitOnChar_length_gt_one '/' p.data).mpr h
    rw [if_pos hlen, if_pos h]
    exact congrArg String.mk (splitOnChar_headD '/' p.data)
  · have hlen : ¬ 1 < (splitOnChar '/' p.data).length := fun hc =>
      h ((splitOnChar_length_gt_one '/' p.data).mp hc)
    rw [if_neg hlen, if_neg h]
    exact congrArg String.mk (splitOnChar_headD '.' p.data)

/-- C3 counterexample: for the single touched path `.env` the grouping key is
the empty string, which holds a strict majority, yet scope inference returns
no scope (the JavaScript truthiness test on `commonDir` drops it) instead of
that key. -/
theorem c3_counterexample :
    groupKey ".env" = "" ∧
      2 * ([".env"].map groupKey).count "" > ([".env"] : List String).length ∧
      detectScopeFromPaths [".env"] = none := by
  decide

/-- C3 (amended): for every sequence of touched paths in which a non-empty
grouping key's occurrence count strictly exceeds half the number of paths,
scope inference returns exactly that key. -/
theorem c3_claim (paths : List String) (key : String) (hne : key ≠ "")
    (hmaj : 2 * (paths.map groupKey).count key > paths.length) :
    detectScopeFromPaths paths = some key := by
  have hcle : (paths.map groupKey).count key ≤ (paths.map groupKey).length :=
    List.count_le_length key (paths.map groupKey)
  rw [List.length_map] at hcle
  have hpos : ¬ paths.length = 0 := by omega
  have hscan := scanMax_majority (paths.map groupKey) key (by rwa [List.length_map])
  unfold detectScopeFromPaths
  rw [if_neg hpos]
  simp only [hscan]
  rw [if_pos ⟨by simpa using hne, hmaj⟩]

/-- C3 witness: two of three paths live under `src`, a strict majority, so
the scope is `src`. -/
theorem c3_witness : detectScopeFromPaths ["src/a.ts", "src/b.ts", "lib/c.ts"] = some "src" :=
  c3_claim ["src/a.ts", "src/b.ts", "lib/c.ts"] "src" (by decide) (by decide)

/-! #### Claim C4: the special-directory fallback -/

/-- The second path segment of a path, absent when the path has fewer than
two segments or its second segment is empty. -/
def segOf (p : String) : Option String :=
  match splitOnChar '/' p.toList with
  | _ :: b :: _ => if b = [] then none else some ⟨b⟩
  | _ => none

/-- The spec's step 4a wording: the second-level entries under `dir` are the
non-empty second path segments of the paths grouped under `dir`. -/
def secondSegmentsSpec (dir : String) (paths : List String) : List String :=
  (paths.filter (fun p => groupKey p == dir)).filterMap segOf

/-- The spec's steps 4b-4c wording: the compound label `"<name>/<second>"`
when some second-level entry holds a strict majority among the second-level
entries, otherwise just `"<name>"`. -/
def fallbackLabel (dir : String) (paths : List String) : String :=
  let entries := secondSegmentsSpec dir paths
  match entries.find? (fun s => decide (2 * entries.count s > entries.length)) with
  | some s => dir ++ "/" ++ s
  | none => dir

/-- The spec's step 4 wording: test the fixed directory list in order and
label the first name whose grouping-key count strictly exceeds one third of
the number of paths; absent when no listed directory qualifies. -/
def fallbackScopeSpec (paths : List String) : Option String :=
  (specialDirs.find? fun d =>
      decide (3 * (paths.map groupKey).count d > paths.length)).map
    fun d => fallbackLabel d paths

lemma length_filter_eq_count (l : List String) (d : String) :
    (l.filter (· == d)).length = l.count d := by
  induction l with
  | nil => rfl
  | cons a rest ih =>
    by_cases h : a = d
    · simp [List.filter_cons, List.count_cons, h, ih]
    · simp [List.filter_cons, List.count_cons, h, ih]

lemma mem_of_count_pos (l : List String) (d : String) (h : 0 < l.count d) : d ∈ l := by
  by_contra hmem
  rw [List.count_eq_zero_of_not_mem hmem] at h
  omega

lemma groupKey_eq_head (p : String) (a b : List Char) (rest : List (List Char))
    (h : splitOnChar '/' p.toList = a :: b :: rest) : groupKey p = ⟨a⟩ := by
  unfold groupKey
  simp only [String.toList] at h ⊢
  simp [h]

lemma segOf_single (p : String) (a : List Char)
    (h : splitOnChar '/' p.toList = [a]) : segOf p = none := by
  unfold segOf
  rw [h]

lemma segOf_cons₂ (p : String) (a b : List Char) (rest : List (List Char))
    (h : splitOnChar '/' p.toList = a :: b :: rest) :
    segOf p = if b = [] then none else some ⟨b⟩ := by
  unfold segOf
  rw [h]

lemma nextLevelOf_single (dir p : String) (a : List Char)
    (h : splitOnChar '/' p.toList = [a]) : nextLevelOf dir p = none := by
  unfold nextLevelOf
  rw [h]

lemma nextLevelOf_cons₂ (dir p : String) (a b : List Char) (rest : List (List Char))
    (h : splitOnChar '/' p.toList = a :: b :: rest) :
    nextLevelOf dir p = if (⟨a⟩ : String) = dir ∧ b ≠ [] then some ⟨b⟩ else none := by
  unfold nextLevelOf
  rw [h]

lemma nextLevel_eq_secondSegments (dir : String) (paths : List String) :
    paths.filterMap (nextLevelOf dir) = secondSegmentsSpec dir paths := by
  induction paths with
  | nil => rfl
  | cons p ps ih =>
    unfold secondSegmentsSpec at ih ⊢
    simp only [List.filterMap_cons, List.filter_cons]
    rcases hs : splitOnChar '/' p.toList with _ | ⟨a, tl⟩
    · exact absurd hs (splitOnChar_ne_nil _ _)
    · rcases tl with _ | ⟨b, rest⟩
      · have hnl := nextLevelOf_single dir p a hs
        have hseg := segOf_single p a hs
        by_cases hg : groupKey p = dir
        · simp [hnl, hseg, hg, List.filterMap_cons, ih]
        · simp [hnl, hseg, hg, ih]
      · have hgk : groupKey p = ⟨a⟩ := groupKey_eq_head p a b rest hs
        have hnl := nextLevelOf_cons₂ dir p a b rest hs
        have hseg := segOf_cons₂ p a b rest hs
        by_cases hd : (⟨a⟩ : String) = dir
        · by_cases hb : b = []
          · rw [if_neg (by simp [hb])] at hnl
            rw [if_pos hb] at hseg
            simp [hnl, hseg, hgk, hd, List.filterMap_cons, ih]
          · rw [if_pos ⟨hd, hb⟩] at hnl
            rw [if_neg hb] at hseg
            simp [hnl, hseg, hgk, hd, List.filterMap_cons, ih]
        · rw [if_neg (by simp [hd])] at hnl
          have hg : ¬ groupKey p = dir := by
            rw [hgk]
            exact hd
          simp [hnl, hg, ih]

lemma secondSegments_ne_empty (dir : String) (paths : List String) :
    ∀ s ∈ secondSegmentsSpec dir paths, s ≠ "" := by
  intro s hs hcon
  unfold secondSegmentsSpec at hs
  rw [List.mem_filterMap] at hs
  obtain ⟨p, hp, hpe⟩ := hs
  rcases hsplit : splitOnChar '/' p.toList with _ | ⟨a, tl⟩
  · exact absurd hsplit (splitOnChar_ne_nil _ _)
  · rcases tl with _ | ⟨b, rest⟩
    · rw [segOf_single p a hsplit] at hpe
      cases hpe
    · rw [segOf_cons₂ p a b rest hsplit] at hpe
      by_cases hb : b = []
      · rw [if_pos hb] at hpe
        cases hpe
      · rw [if_neg hb] at hpe
        have hbs : (⟨b⟩ : String) = s := Option.some.inj hpe
        apply hb
        have : (⟨b⟩ : String) = "" := hbs.trans hcon
        exact congrArg String.data this

lemma specialLoop_eq_fallback (paths : List String) (dirs : List String) :
    specialLoop paths (paths.map groupKey) dirs =
      (dirs.find? fun d =>
          decide (3 * (paths.map groupKey).count d > paths.length)).map
        fun d => fallbackLabel d paths := by
  induction dirs with
  | nil => rfl
  | cons d rest ih =>
    by_cases hp : 3 * (paths.map groupKey).count d > paths.length
    · rw [List.find?_cons_of_pos _ (by simpa using hp)]
      have hcpos : 0 < (paths.map groupKey).count d := by omega
      have hmem : d ∈ paths.map groupKey := mem_of_count_pos _ _ hcpos
      have hfilt : (List.filter (· == d) (paths.map groupKey)).length =
          (paths.map groupKey).count d := length_filter_eq_count _ _
      unfold specialLoop
      rw [if_pos ⟨hmem, by rw [hfilt]; exact hp⟩]
      rw [nextLevel_eq_secondSegments]
      unfold fallbackLabel
      simp only [Option.map_some']
      rcases hfind : (secondSegmentsSpec d paths).find?
          (fun s => decide (2 * (secondSegmentsSpec d paths).count s >
            (secondSegmentsSpec d paths).length)) with _ | s
      · have hnone := List.find?_eq_none.mp hfind
        by_cases hlen : (secondSegmentsSpec d paths).length > 0
        · rw [if_pos hlen]
          have hguard : ¬ ((scanMax ((secondSegmentsSpec d paths).foldl incr [])).1.getD "" ≠ "" ∧
              2 * (scanMax ((secondSegmentsSpec d paths).foldl incr [])).2 >
                (secondSegmentsSpec d paths).length) := by
            rcases foldl_maxStep_result ((secondSegmentsSpec d paths).foldl incr [])
                (none, 0) with h | ⟨k, c, hm, hres⟩
            · rw [scanMax, h]
              simp
            · obtain ⟨hkmem, hc⟩ := countMap_mem _ _ _ hm
              rw [scanMax, hres]
              rintro ⟨_, hlt⟩
              have := hnone k hkmem
              simp only [decide_eq_true_eq] at this
              omega
          rw [if_neg hguard]
        · rw [if_neg hlen]
      · have hmaj : 2 * (secondSegmentsSpec d paths).count s >
            (secondSegmentsSpec d paths).length := by
          have := List.find?_some hfind
          simpa using this
        have hsmem : s ∈ secondSegmentsSpec d paths := List.mem_of_find?_eq_some hfind
        have hsne : s ≠ "" := secondSegments_ne_empty d paths s hsmem
        have hlen : (secondSegmentsSpec d paths).length > 0 :=
          List.length_pos.mpr (List.ne_nil_of_mem hsmem)
        rw [if_pos hlen]
        have hscan := scanMax_majority (secondSegmentsSpec d paths) s hmaj
        rw [hscan]
        rw [if_pos ⟨by simpa using hsne, hmaj⟩]
        simp
    · rw [List.find?_cons_of_neg _ (by simpa using hp)]
      unfold specialLoop
      rw [if_neg ?_]
      · exact ih
      · rintro ⟨_, hlt⟩
        rw [length_filter_eq_count] at hlt
        exact hp hlt

/-- C4: when no grouping key holds a strict majority, scope inference agrees
with the spec's fallback — the fixed directory list is tested in order, the
first name whose grouping-key count strictly exceeds one third of the number
of paths yields either `"<name>/<second>"` (when some second-level entry has
a strict majority among the second-level entries) or `"<name>"`, and the
result is absent when no listed directory qualifies. -/
theorem c4_claim (paths : List String)
    (hnomaj : ∀ k ∈ paths.map groupKey,
      2 * (paths.map groupKey).count k ≤ paths.length) :
    detectScopeFromPaths paths = fallbackScopeSpec paths := by
  rcases Nat.eq_zero_or_pos paths.length with h0 | h0
  · have hnil : paths = [] := List.length_eq_zero.mp h0
    subst hnil
    rfl
  · simp only [detectScopeFromPaths]
    rw [if_neg (by omega)]
    have hguard : ¬ ((scanMax ((paths.map groupKey).foldl incr [])).1.getD "" ≠ "" ∧
        2 * (scanMax ((paths.map groupKey).foldl incr [])).2 > paths.length) := by
      rcases foldl_maxStep_result ((paths.map groupKey).foldl incr [])
          (none, 0) with h | ⟨k, c, hm, hres⟩
      · rw [scanMax, h]
        simp
      · obtain ⟨hkmem, hc⟩ := countMap_mem _ _ _ hm
        rw [scanMax, hres]
        rintro ⟨_, hlt⟩
        have := hnomaj k hkmem
        omega
    rw [if_neg hguard]
    rw [specialLoop_eq_fallback]
    rfl

/-- C4 witness: four paths with no strict-majority grouping key; `src` holds
more than one third of the keys and `api` is a strict majority among its
second-level entries, so the scope is `src/api`. -/
theorem c4_witness :
    detectScopeFromPaths ["src/api/a.ts", "src/api/b.ts", "lib/c.ts", "utils/d.ts"] =
        fallbackScopeSpec ["src/api/a.ts", "src/api/b.ts", "lib/c.ts", "utils/d.ts"] ∧
      detectScopeFromPaths ["src/api/a.ts", "src/api/b.ts", "lib/c.ts", "utils/d.ts"] =
        some "src/api" :=
  ⟨c4_claim ["src/api/a.ts", "src/api/b.ts", "lib/c.ts", "utils/d.ts"] (by decide),
    by decide⟩

/-! ### Template resolution (`loadAndProcessTemplate`, lines 991-1018) -/

/-- JavaScript `String.prototype.trim`: drop whitespace from both ends. -/
def trimChars (l : List Char) : List Char :=
  ((l.dropWhile Char.isWhitespace).reverse.dropWhile Char.isWhitespace).reverse

/-- A `\w` word character of the JavaScript regular expressions in play:
ASCII letters, digits and underscore. -/
def isWordChar (c : Char) : Bool :=
  c.isAlphanum || c = '_'

/-- Keys for which `new RegExp('\x7b\x7b' + key + '\x7d\x7d', 'g')` denotes
exactly the literal text `{{key}}`: word characters only and not a pure
digit run (a digit run would be read as a `{n}` quantifier by the regex
grammar).  Every key the program passes to the resolver — `scope`, `style`,
`lang`, `model`, `diff`, `detectedScope` — is of this shape. -/
def regexSafeKey (k : String) : Bool :=
  k.toList.all isWordChar && !(!k.toList.isEmpty && k.toList.all Char.isDigit)

/-- The placeholder text `{{key}}` of line 1009 for one variable key. -/
def placeholder (k : String) : List Char :=
  ("\x7b\x7b" ++ k ++ "\x7d\x7d").toList

/-- Whether `pat` occurs as a contiguous subsequence of `s`. -/
def containsSeq (pat : List Char) : List Char → Bool
  | [] => pat.isEmpty
  | c :: rest => pat.isPrefixOf (c :: rest) || containsSeq pat rest

/-- Left-to-right replace-all with explicit fuel (one unit per consumed
character), the semantics of `String.prototype.replace` with a global
literal pattern. -/
def replaceAllFuel (pat rep : List Char) : Nat → List Char → List Char
  | 0, s => s
  | _ + 1, [] => []
  | fuel + 1, c :: rest =>
    if pat.isPrefixOf (c :: rest) && !pat.isEmpty then
      rep ++ replaceAllFuel pat rep fuel ((c :: rest).drop pat.length)
    else c :: replaceAllFuel pat rep fuel rest

/-- Line 1009: `templateContent.replace(new RegExp(..., 'g'), value)`,
modelled as literal global substring replacement.  The model coincides with
the JavaScript call exactly when the key contains no regular-expression
metacharacters (`regexSafeKey`) and the value no dollar replacement
sequences — JavaScript would reinterpret either — and the C6 theorems carry
these hypotheses; every key/value pair the program actually passes lies in
that domain. -/
def replaceAll (pat rep s : List Char) : List Char :=
  replaceAllFuel pat rep s.length s

/-- The one-step equation of `replaceAllFuel` on a cons cell. -/
lemma replaceAllFuel_cons (pat rep : List Char) (fuel : Nat) (c : Char) (rest : List Char) :
    replaceAllFuel pat rep (fuel + 1) (c :: rest) =
      if pat.isPrefixOf (c :: rest) && !pat.isEmpty then
        rep ++ replaceAllFuel pat rep fuel ((c :: rest).drop pat.length)
      else c :: replaceAllFuel pat rep fuel rest := rfl

/-- One iteration of the substitution loop of lines 1007-1011: substitute
every occurrence of `{{key}}` when the value is defined, leave the content
untouched when the value is undefined. -/
def substStep (acc : List Char) (kv : String × Option String) : List Char :=
  match kv.2 with
  | some v => replaceAll (placeholder kv.1) v.toList acc
  | none => acc

/-- Lines 1007-1011: iterate over `Object.entries(variables)` in insertion
order. -/
def substituteVars (vars : List (String × Option String)) (content : List Char) : List Char :=
  vars.foldl substStep content

/-- `loadAndProcessTemplate`, lines 991-1018, applied to the already-loaded
template text (the file read of lines 997-1004 is the external
TemplateStore collaborator); note the final `.trim()` of line 1013. -/
def loadAndProcessTemplate (vars : List (String × Option String))
    (templateText : String) : String :=
  ⟨trimChars (substituteVars vars templateText.toList)⟩

lemma replaceAllFuel_id (pat rep : List Char) (fuel : Nat) :
    ∀ s : List Char, s.length ≤ fuel → containsSeq pat s = false →
      replaceAllFuel pat rep fuel s = s := by
  induction fuel with
  | zero => intro s _ _; rfl
  | succ f ih =>
    intro s hlen hocc
    cases s with
    | nil => rfl
    | cons c rest =>
      simp only [containsSeq, Bool.or_eq_false_iff] at hocc
      simp only [replaceAllFuel, hocc.1, Bool.false_and, if_neg Bool.false_ne_true]
      rw [ih rest (by simpa using Nat.le_of_succ_le_succ hlen) hocc.2]

lemma replaceAll_id (pat rep s : List Char) (h : containsSeq pat s = false) :
    replaceAll pat rep s = s :=
  replaceAllFuel_id pat rep s.length s le_rfl h

lemma substituteVars_id (vars : List (String × Option String)) (content : List Char)
    (h : ∀ kv ∈ vars, kv.2.isSome = true →
      containsSeq (placeholder kv.1) content = false) :
    substituteVars vars content = content := by
  induction vars with
  | nil => rfl
  | cons kv rest ih =>
    simp only [substituteVars, List.foldl_cons]
    have hstep : substStep content kv = content := by
      unfold substStep
      rcases hv : kv.2 with _ | v
      · rfl
      · exact replaceAll_id _ _ _ (h kv (List.mem_cons_self _ _) (by simp [hv]))
    rw [hstep]
    exact ih fun x hx hsome => h x (List.mem_cons_of_mem _ hx) hsome

lemma isPrefixOf_append_self (l t : List Char) : l.isPrefixOf (l ++ t) = true := by
  induction l with
  | nil => simp [List.isPrefixOf]
  | cons a as ih => simp [List.isPrefixOf, ih]

lemma isPrefixOf_eq_true_iff (l₁ l₂ : List Char) :
    l₁.isPrefixOf l₂ = true ↔ ∃ t, l₁ ++ t = l₂ := by
  induction l₁ generalizing l₂ with
  | nil => simp [List.isPrefixOf]
  | cons a as ih =>
    cases l₂ with
    | nil =>
      simp [List.isPrefixOf]
    | cons b bs =>
      simp only [List.isPrefixOf, Bool.and_eq_true, beq_iff_eq, ih, List.cons_append]
      constructor
      · rintro ⟨rfl, t, rfl⟩
        exact ⟨t, rfl⟩
      · rintro ⟨t, ht⟩
        injection ht with h1 h2
        exact ⟨h1, t, h2⟩

lemma isPrefixOf_of_longer (p w s : List Char) (hp : p.isPrefixOf s = true)
    (hw : w.isPrefixOf s = true) (hlen : p.length ≤ w.length) :
    p.isPrefixOf w = true := by
  rw [isPrefixOf_eq_true_iff] at hp hw ⊢
  obtain ⟨t1, ht1⟩ := hp
  obtain ⟨t2, ht2⟩ := hw
  refine ⟨w.drop p.length, ?_⟩
  have hpw : w.take p.length = p := by
    calc w.take p.length = (w ++ t2).take p.length :=
          (List.take_append_of_le_length hlen).symm
    _ = (p ++ t1).take p.length := by rw [ht2, ht1]
    _ = p := List.take_left p t1
  calc p ++ w.drop p.length = w.take p.length ++ w.drop p.length := by rw [hpw]
  _ = w := List.take_append_drop _ _

lemma isPrefixOf_shift (pat u v : List Char) (hpat : pat ≠ []) (hu : u ≠ [])
    (h : pat.isPrefixOf (u ++ pat ++ v) = true) :
    pat.isPrefixOf (u ++ pat.take (pat.length - 1)) = true := by
  have hplen : 1 ≤ pat.length := by
    rcases pat with _ | _
    · exact absurd rfl hpat
    · simp
  have hulen : 1 ≤ u.length := by
    rcases u with _ | _
    · exact absurd rfl hu
    · simp
  apply isPrefixOf_of_longer pat (u ++ pat.take (pat.length - 1)) (u ++ pat ++ v) h
  · rw [isPrefixOf_eq_true_iff]
    refine ⟨pat.drop (pat.length - 1) ++ v, ?_⟩
    rw [List.append_assoc, List.append_assoc]
    congr 1
    rw [← List.append_assoc, List.take_append_drop]
  · rw [List.length_append, List.length_take, Nat.min_eq_left (by omega)]
    omega

lemma containsSeq_of_isPrefixOf (pat s : List Char) (h : pat.isPrefixOf s = true) :
    containsSeq pat s = true := by
  cases s with
  | nil =>
    cases pat with
    | nil => rfl
    | cons a as => simp [List.isPrefixOf] at h
  | cons c rest => simp [containsSeq, h]

lemma containsSeq_cons_false (pat : List Char) (c : Char) (rest : List Char)
    (h : containsSeq pat (c :: rest) = false) : containsSeq pat rest = false := by
  simp only [containsSeq, Bool.or_eq_false_iff] at h
  exact h.2

lemma replaceAllFuel_fuel_irrel (pat rep : List Char) :
    ∀ (fuel₁ : Nat) (s : List Char) (fuel₂ : Nat), s.length ≤ fuel₁ → s.length ≤ fuel₂ →
      replaceAllFuel pat rep fuel₁ s = replaceAllFuel pat rep fuel₂ s := by
  intro fuel₁
  induction fuel₁ with
  | zero =>
    intro s fuel₂ h₁ _
    have hnil : s = [] := List.length_eq_zero.mp (Nat.le_zero.mp h₁)
    subst hnil
    cases fuel₂ <;> rfl
  | succ f ih =>
    intro s fuel₂ h₁ h₂
    cases s with
    | nil => cases fuel₂ <;> rfl
    | cons c rest =>
      cases fuel₂ with
      | zero => simp at h₂
      | succ f₂ =>
        rw [replaceAllFuel_cons, replaceAllFuel_cons]
        by_cases hb : (pat.isPrefixOf (c :: rest) && !pat.isEmpty) = true
        · rw [if_pos hb, if_pos hb]
          have hb' : pat.isPrefixOf (c :: rest) = true ∧ !pat.isEmpty = true := by
            simpa using hb
          have hplen : 1 ≤ pat.length := by
            rcases pat with _ | _
            · simp [List.isEmpty] at hb'
            · simp
          congr 1
          apply ih
          · simp only [List.length_drop, List.length_cons]
            simp only [List.length_cons] at h₁
            omega
          · simp only [List.length_drop, List.length_cons]
            simp only [List.length_cons] at h₂
            omega
        · rw [if_neg hb, if_neg hb]
          congr 1
          apply ih
          · simp only [List.length_cons] at h₁
            omega
          · simp only [List.length_cons] at h₂
            omega

lemma replaceAll_match (pat rep v : List Char) (hpat : pat ≠ []) :
    replaceAll pat rep (pat ++ v) = rep ++ replaceAll pat rep v := by
  rcases pat with _ | ⟨p0, pt⟩
  · exact absurd rfl hpat
  · have hpre : (p0 :: pt).isPrefixOf ((p0 :: pt) ++ v) = true := isPrefixOf_append_self _ _
    have hcond : ((p0 :: pt).isPrefixOf (p0 :: (pt ++ v)) && !(p0 :: pt).isEmpty) = true := by
      have hpre' : (p0 :: pt).isPrefixOf (p0 :: (pt ++ v)) = true := hpre
      simp [hpre']
    show replaceAllFuel (p0 :: pt) rep (((p0 :: pt) ++ v).length) ((p0 :: pt) ++ v) =
      rep ++ replaceAllFuel (p0 :: pt) rep v.length v
    have hform : (p0 :: pt) ++ v = p0 :: (pt ++ v) := rfl
    rw [hform]
    rw [show (p0 :: (pt ++ v)).length = (pt ++ v).length + 1 from rfl]
    rw [replaceAllFuel_cons, if_pos hcond]
    congr 1
    have hdrop : (p0 :: (pt ++ v)).drop (p0 :: pt).length = v := by
      show ((p0 :: pt) ++ v).drop (p0 :: pt).length = v
      exact List.drop_left _ _
    rw [hdrop]
    exact replaceAllFuel_fuel_irrel _ _ _ v _
      (by simp only [List.length_append]; omega) le_rfl

lemma replaceAll_cons_no_match (pat rep : List Char) (c : Char) (rest : List Char)
    (h : pat.isPrefixOf (c :: rest) = false) :
    replaceAll pat rep (c :: rest) = c :: replaceAll pat rep rest := by
  show replaceAllFuel pat rep ((c :: rest).length) (c :: rest) = _
  rw [show (c :: rest).length = rest.length + 1 from rfl]
  rw [replaceAllFuel_cons, if_neg (by simp [h])]
  rfl

/-- Replace-all replaces the leftmost occurrence and continues behind it:
when no occurrence of the pattern starts inside `u`, the occurrence sitting
right after `u` is replaced and the scan proceeds on the remainder alone. -/
lemma replaceAll_first (pat rep : List Char) (hpat : pat ≠ []) :
    ∀ (u w : List Char),
      containsSeq pat (u ++ pat.take (pat.length - 1)) = false →
      replaceAll pat rep (u ++ pat ++ w) = u ++ rep ++ replaceAll pat rep w := by
  intro u
  induction u with
  | nil =>
    intro w _
    simpa using replaceAll_match pat rep w hpat
  | cons c u' ih =>
    intro w hu
    have hnp : pat.isPrefixOf ((c :: u') ++ pat ++ w) = false := by
      by_contra hcon
      have htrue : pat.isPrefixOf ((c :: u') ++ pat ++ w) = true := by
        rcases Bool.eq_false_or_eq_true (pat.isPrefixOf ((c :: u') ++ pat ++ w)) with h | h
        · exact h
        · exact absurd h hcon
      have hshift := isPrefixOf_shift pat (c :: u') w hpat (by simp) htrue
      have hcontains := containsSeq_of_isPrefixOf pat _ hshift
      rw [hu] at hcontains
      cases hcontains
    have hu2 : containsSeq pat (c :: (u' ++ pat.take (pat.length - 1))) = false := by
      simpa using hu
    have hu' : containsSeq pat (u' ++ pat.take (pat.length - 1)) = false :=
      containsSeq_cons_false pat c _ hu2
    have heq : (c :: u') ++ pat ++ w = c :: (u' ++ pat ++ w) := rfl
    rw [heq] at hnp
    rw [heq, replaceAll_cons_no_match pat rep c _ hnp, ih w hu']
    simp

lemma substituteVars_none (vars : List (String × Option String)) (content : List Char)
    (h : ∀ kv ∈ vars, kv.2 = none) : substituteVars vars content = content := by
  induction vars with
  | nil => rfl
  | cons kv rest ih =>
    simp only [substituteVars, List.foldl_cons]
    have hstep : substStep content kv = content := by
      unfold substStep
      rw [h kv (List.mem_cons_self _ _)]
    rw [hstep]
    exact ih fun x hx => h x (List.mem_cons_of_mem _ hx)

lemma placeholder_ne_nil (k : String) : placeholder k ≠ [] := by
  have h : placeholder k = "\x7b\x7b".toList ++ (k.toList ++ "\x7d\x7d".toList) := by
    simp [placeholder, String.toList, String.data_append]
  rw [h]
  simp

/-- C6 counterexample: on a template with surrounding whitespace and no
placeholders at all, the resolver returns the trimmed text, not the loaded
template text unchanged. -/
theorem c6_counterexample :
    loadAndProcessTemplate [] " a " = "a" ∧ loadAndProcessTemplate [] " a " ≠ " a " := by
  decide

/-- C6 (amended): template resolution (i) replaces every occurrence of
`{{key}}` for a key present with a defined value — the leftmost occurrence
is replaced by the value and the scan continues behind the replacement —
(ii) leaves keys with an undefined value untouched, and (iii) on a template
text containing no matching placeholders returns the template text trimmed
of surrounding whitespace, the identity only on already-trimmed inputs.
The key-shape and value-shape hypotheses of (i) and (iii) delimit the domain
on which the literal model equals the code's `new RegExp`-based replacement
— keys without regular-expression metacharacters and values without dollar
sequences — which covers every key/value pair the program passes. -/
theorem c6_claim :
    (∀ (k val : String) (u w : List Char),
        regexSafeKey k = true →
        val.toList.all (· != '$') = true →
        containsSeq (placeholder k)
            (u ++ (placeholder k).take ((placeholder k).length - 1)) = false →
        substituteVars [(k, some val)] (u ++ placeholder k ++ w) =
          u ++ val.toList ++ replaceAll (placeholder k) val.toList w) ∧
      (∀ (vars : List (String × Option String)) (content : List Char),
        (∀ kv ∈ vars, kv.2 = none) → substituteVars vars content = content) ∧
      (∀ (templateText : String) (vars : List (String × Option String)),
        (∀ kv ∈ vars, kv.2.isSome = true → regexSafeKey kv.1 = true ∧
          containsSeq (placeholder kv.1) templateText.toList = false) →
        loadAndProcessTemplate vars templateText = ⟨trimChars templateText.toList⟩) := by
  refine ⟨?_, ?_, ?_⟩
  · intro k val u w _ _ hu
    have h0 : substituteVars [(k, some val)] (u ++ placeholder k ++ w) =
        replaceAll (placeholder k) val.toList (u ++ placeholder k ++ w) := rfl
    rw [h0, replaceAll_first (placeholder k) val.toList (placeholder_ne_nil k) u w hu]
  · exact substituteVars_none
  · intro templateText vars h
    unfold loadAndProcessTemplate
    rw [substituteVars_id vars _ (fun kv hkv hsome => (h kv hkv hsome).2)]

/-- C6 witness: the template `A {{x}} B {{x}}` with `x` defined as `V` — the
leftmost placeholder is replaced and the scan continues, giving `A V B V`
overall; and a template whose only placeholder belongs to an undefined key
comes back with the placeholder untouched, merely trimmed. -/
theorem c6_witness :
    substituteVars [("x", some "V")]
        ("A ".toList ++ placeholder "x" ++ (" B ".toList ++ placeholder "x")) =
      "A ".toList ++ "V".toList ++
        replaceAll (placeholder "x") "V".toList (" B ".toList ++ placeholder "x") ∧
    substituteVars [("x", some "V")]
        ("A ".toList ++ placeholder "x" ++ (" B ".toList ++ placeholder "x")) =
      "A V B V".toList ∧
    loadAndProcessTemplate [("y", some "v"), ("x", none)] "hello \x7b\x7bx\x7d\x7d" =
      "hello \x7b\x7bx\x7d\x7d" := by
  refine ⟨c6_claim.1 "x" "V" "A ".toList (" B ".toList ++ placeholder "x")
      (by decide) (by decide) (by decide), by decide, ?_⟩
  exact (c6_claim.2.2 "hello \x7b\x7bx\x7d\x7d" [("y", some "v"), ("x", none)]
    (by decide)).trans (by decide)

/-! ### The interactive refinement step (`processSingleCommit`, lines 861-905) -/

/-- The four user decisions offered by the interactive prompt. -/
inductive Decision where
  | accept
  | edit (text : String)
  | regenerate
  | cancel
deriving DecidableEq

/-- Lines 861-905: the interactive step runs one prompt and one `switch` —
it consumes only the first decision.  `accept` keeps the proposed message,
`edit` replaces it by the trimmed user text, `regenerate` invokes the
generator once more and proceeds directly with that text, `cancel` aborts
with no commit.  `gen n` is the text of the `n`-th re-invocation of
`generateCommitMessage`. -/
def interactiveRefine (finalMessage : String) (gen : Nat → String) :
    List Decision → Option String
  | [] => none
  | Decision.accept :: _ => some finalMessage
  | Decision.edit t :: _ => some ⟨trimChars t.toList⟩
  | Decision.regenerate :: _ => some (gen 0)
  | Decision.cancel :: _ => none

/-- Modelled from the spec for the C7 counterexample: the spec's
RefinementSession state machine, in which `regenerate` loops back to
`Proposed` and consumes further decisions. -/
def refineLoopSpec (msg : String) (gen : Nat → String) (calls : Nat) :
    List Decision → Option String
  | [] => none
  | Decision.accept :: _ => some msg
  | Decision.edit t :: _ => some ⟨trimChars t.toList⟩
  | Decision.regenerate :: rest => refineLoopSpec (gen calls) gen (calls + 1) rest
  | Decision.cancel :: _ => none

/-- A generator stream with distinct first and later texts. -/
def genSeq : Nat → String
  | 0 => "g0"
  | _ + 1 => "g1"

/-- C7 counterexample: for the decision sequence regenerate, regenerate,
accept, the code ends with the first regeneration's text `g0`, while the
claimed looping session would end Accepted with the last regeneration's
text `g1` — the second regenerate and the accept are never consumed. -/
theorem c7_counterexample :
    interactiveRefine "m" genSeq [Decision.regenerate, Decision.regenerate, Decision.accept] =
        some "g0" ∧
      refineLoopSpec "m" genSeq 0 [Decision.regenerate, Decision.regenerate, Decision.accept] =
        some "g1" ∧
      interactiveRefine "m" genSeq [Decision.regenerate, Decision.regenerate, Decision.accept] ≠
        refineLoopSpec "m" genSeq 0 [Decision.regenerate, Decision.regenerate, Decision.accept] := by
  decide

/-- C7 (amended): the interactive step consults only the first decision; a
regenerate decision invokes generation exactly once more with the same
context and the session then proceeds directly with that regenerated text,
never returning to the proposed state, while an accept keeps the proposed
message. -/
theorem c7_claim (msg : String) (gen : Nat → String) (d : Decision)
    (rest : List Decision) :
    interactiveRefine msg gen (d :: rest) = interactiveRefine msg gen [d] ∧
      interactiveRefine msg gen (Decision.regenerate :: rest) = some (gen 0) ∧
      interactiveRefine msg gen (Decision.accept :: rest) = some msg := by
  refine ⟨?_, rfl, rfl⟩
  cases d <;> rfl

/-! ### Commit history statistics (`GitUtils.generateCommitStatistics`,
lines 505-631) -/

/-- Longest-body search for the `\(.+\)` group followed by `:`: the longest
body of non-line-terminator characters such that the input reads
`body ++ ")" ++ ":" ++ _`, absent when no decomposition exists.  The greedy
`.+` of the source regexes selects exactly this longest body. -/
def scanClose : List Char → Option (List Char)
  | [] => none
  | c :: rest =>
    let deeper := if c = '\n' ∨ c = '\r' then none else (scanClose rest).map (c :: ·)
    match deeper with
    | some b => some b
    | none =>
      match c, rest with
      | ')', ':' :: _ => some []
      | _, _ => none

/-- The regex `^\w+\((.+)\):` of lines 463 and 549: the captured scope
token, absent when the message does not match. -/
def scopeCapture (msg : List Char) : Option (List Char) :=
  if (msg.takeWhile isWordChar).isEmpty then none
  else
    match msg.dropWhile isWordChar with
    | '(' :: t =>
      match scanClose t with
      | some b => if b.isEmpty then none else some b
      | none => none
    | _ => none

/-- Whether a message matches the scope regex `^\w+\((.+)\):`. -/
def matchesScopePattern (msg : List Char) : Bool :=
  (scopeCapture msg).isSome

/-- The regex `^(\w+)(?:\(.+\))?:` of lines 456 and 542 as a Boolean
matcher: a non-empty leading word-character run followed either directly by
a colon or by a parenthesised non-empty group and a colon. -/
def matchesTypePattern (msg : List Char) : Bool :=
  !(msg.takeWhile isWordChar).isEmpty &&
    ((msg.dropWhile isWordChar).head? == some ':' || (scopeCapture msg).isSome)

/-- One commit record from the version-control log.  The calendar-day key
and hour-of-day key are carried as precomputed fields: the
`new Date(commit.date)` bucketing of lines 556-558 is collaborator-supplied
data outside the pure core. -/
structure CommitRecord where
  message : String
  author_name : String
  dayKey : String
  hourKey : String
deriving DecidableEq

structure MessageLengthStats where
  min : Nat
  max : Nat
  average : ℚ
  median : ℚ
deriving DecidableEq

/-- The finalized per-author entry of lines 586-594. -/
structure AuthorFinal where
  commits : Nat
  avgMessageLength : ℤ
deriving DecidableEq

/-- Structured content of the three suggestion strings of lines 596-614. -/
inductive Suggestion where
  | adoptConventional
  | shortenMessages (avgRounded : ℤ)
  | batchCommits (day : String) (count : Nat)
deriving DecidableEq

/-- The report returned by `generateCommitStatistics`, lines 616-627. -/
structure CommitStats where
  totalCommits : Nat
  commitTypes : List (String × Nat)
  commonScopes : List (String × Nat)
  messageLengths : MessageLengthStats
  dailyCommits : List (String × Nat)
  hourlyCommits : List (String × Nat)
  authorStats : List (String × AuthorFinal)
  suggestions : List Suggestion
deriving DecidableEq

/-- The mutable accumulators initialized at lines 529-534. -/
structure StatsAcc where
  commitTypes : List (String × Nat)
  commonScopes : List (String × Nat)
  messageLengths : List Nat
  dailyCommits : List (String × Nat)
  hourlyCommits : List (String × Nat)
  authorStats : List (String × Nat × List Nat)
deriving DecidableEq

def emptyAcc : StatsAcc := ⟨[], [], [], [], [], []⟩

/-- Lines 563-570: bump the author's commit counter and push the message
length. -/
def bumpAuthor : List (String × Nat × List Nat) → String → Nat → List (String × Nat × List Nat)
  | [], name, len => [(name, 1, [len])]
  | (n, c, ls) :: rest, name, len =>
    if n = name then (n, c + 1, ls ++ [len]) :: rest
    else (n, c, ls) :: bumpAuthor rest name len

/-- Line 538: `const message = commit.message.trim()`. -/
def msgOf (r : CommitRecord) : List Char := trimChars r.message.toList

/-- Lines 537-571: the per-record accumulation over the trimmed message.
The JavaScript truthiness test `if (commit.author_name)` admits exactly the
non-empty author names. -/
def statsStep (acc : StatsAcc) (r : CommitRecord) : StatsAcc :=
  let msg := msgOf r
  { commitTypes :=
      if matchesTypePattern msg then incr acc.commitTypes ⟨msg.takeWhile isWordChar⟩
      else acc.commitTypes
    commonScopes :=
      match scopeCapture msg with
      | some b => incr acc.commonScopes ⟨b⟩
      | none => acc.commonScopes
    messageLengths := acc.messageLengths ++ [msg.length]
    dailyCommits := incr acc.dailyCommits r.dayKey
    hourlyCommits := incr acc.hourlyCommits r.hourKey
    authorStats :=
      if r.author_name ≠ "" then bumpAuthor acc.authorStats r.author_name msg.length
      else acc.authorStats }

def insertSorted (x : Nat) : List Nat → List Nat
  | [] => [x]
  | y :: ys => if x ≤ y then x :: y :: ys else y :: insertSorted x ys

/-- Line 574: `[...messageLengths].sort((a, b) => a - b)`, ascending. -/
def sortNat (l : List Nat) : List Nat := l.foldr insertSorted []

/-- JavaScript `Math.round` on the non-negative rationals arising here:
half-up rounding. -/
def jsRound (q : ℚ) : ℤ := Int.floor (q + 1 / 2)

/-- Lines 586-594: per-author commit count and rounded average message
length. -/
def finalizeAuthors (l : List (String × Nat × List Nat)) : List (String × AuthorFinal) :=
  l.map fun e => (e.1, ⟨e.2.1, jsRound (((e.2.2.sum : ℚ)) / (e.2.2.length : ℚ))⟩)

/-- Line 611: `Object.entries(dailyCommits).sort((a, b) => b[1] - a[1])[0]`
— the head of a stable descending sort by count, i.e. the earliest-inserted
entry attaining the maximal count. -/
def busiestEntry (m : List (String × Nat)) : Option (String × Nat) :=
  m.foldl (fun acc e =>
    match acc with
    | none => some e
    | some a => if e.2 > a.2 then some e else acc) none

/-- Sum of the counter values of a frequency map. -/
def sumVals (m : List (String × Nat)) : Nat := (m.map Prod.snd).sum

/-- Sum of the raw per-author commit counters. -/
def sumRawAuthor (m : List (String × Nat × List Nat)) : Nat :=
  (m.map fun e => e.2.1).sum

/-- Sum of the finalized per-author commit counters. -/
def sumAuthorCommits (m : List (String × AuthorFinal)) : Nat :=
  (m.map fun e => e.2.commits).sum

/-- `GitUtils.generateCommitStatistics`, lines 505-631, on the record window
returned by the log collaborator.  The `sortedLengths[0] || 0` and
`sortedLengths[len - 1] || 0` accesses of lines 576-577 and the `len = 0`
branches of lines 578-583 appear as `Option.getD 0` and the positivity
guards; the suggestion condition `totalConventional / total < 0.5` of line
601 evaluates to `NaN < 0.5 = false` on an empty log, embedded as the
positivity guard. -/
def generateCommitStatistics (records : List CommitRecord) : CommitStats :=
  let acc := records.foldl statsStep emptyAcc
  let sortedLengths := sortNat acc.messageLengths
  let n := sortedLengths.length
  let average : ℚ := if 0 < n then ((acc.messageLengths.sum : ℚ)) / (n : ℚ) else 0
  let median : ℚ :=
    if 0 < n then
      if n % 2 = 0 then
        (((sortedLengths.get? (n / 2 - 1)).getD 0 : ℚ) +
            ((sortedLengths.get? (n / 2)).getD 0 : ℚ)) / 2
      else ((sortedLengths.get? (n / 2)).getD 0 : ℚ)
    else 0
  let lengthStats : MessageLengthStats :=
    { min := (sortedLengths.get? 0).getD 0
      max := (sortedLengths.get? (n - 1)).getD 0
      average := average
      median := median }
  let totalConventional := sumVals acc.commitTypes
  let suggestions :=
    (if 0 < records.length ∧ 2 * totalConventional < records.length then
        [Suggestion.adoptConventional]
      else []) ++
    (if average > 72 then [Suggestion.shortenMessages (jsRound average)] else []) ++
    (match busiestEntry acc.dailyCommits with
     | some e => if e.2 > 10 then [Suggestion.batchCommits e.1 e.2] else []
     | none => [])
  { totalCommits := records.length
    commitTypes := acc.commitTypes
    commonScopes := acc.commonScopes
    messageLengths := lengthStats
    dailyCommits := acc.dailyCommits
    hourlyCommits := acc.hourlyCommits
    authorStats := finalizeAuthors acc.authorStats
    suggestions := suggestions }

/-- C8: on an empty record sequence the statistics report is total and comes
back with zero totals, empty frequency and author maps, all message-length
statistics equal to zero and no suggestions — every division and index
access is guarded. -/
theorem c8_claim :
    generateCommitStatistics [] =
      { totalCommits := 0
        commitTypes := []
        commonScopes := []
        messageLengths := { min := 0, max := 0, average := 0, median := 0 }
        dailyCommits := []
        hourlyCommits := []
        authorStats := []
        suggestions := [] } := by
  decide

lemma sumVals_incr (m : List (String × Nat)) (k : String) :
    sumVals (incr m k) = sumVals m + 1 := by
  induction m with
  | nil => simp [incr, sumVals]
  | cons e rest ih =>
    obtain ⟨k0, c0⟩ := e
    by_cases h : k0 = k
    · simp [incr, sumVals, h]
      omega
    · simp only [incr, if_neg h, sumVals, List.map_cons, List.sum_cons] at ih ⊢
      omega

lemma sumRaw_bumpAuthor (m : List (String × Nat × List Nat)) (name : String) (len : Nat) :
    sumRawAuthor (bumpAuthor m name len) = sumRawAuthor m + 1 := by
  induction m with
  | nil => simp [bumpAuthor, sumRawAuthor]
  | cons e rest ih =>
    obtain ⟨n, c, ls⟩ := e
    by_cases h : n = name
    · simp [bumpAuthor, sumRawAuthor, h]
      omega
    · simp only [bumpAuthor, if_neg h, sumRawAuthor, List.map_cons, List.sum_cons] at ih ⊢
      omega

lemma daily_sum (records : List CommitRecord) (acc : StatsAcc) :
    sumVals ((records.foldl statsStep acc).dailyCommits) =
      sumVals acc.dailyCommits + records.length := by
  induction records generalizing acc with
  | nil => simp
  | cons r rest ih =>
    simp only [List.foldl_cons, ih, List.length_cons]
    simp [statsStep, sumVals_incr]
    omega

lemma hourly_sum (records : List CommitRecord) (acc : StatsAcc) :
    sumVals ((records.foldl statsStep acc).hourlyCommits) =
      sumVals acc.hourlyCommits + records.length := by
  induction records generalizing acc with
  | nil => simp
  | cons r rest ih =>
    simp only [List.foldl_cons, ih, List.length_cons]
    simp [statsStep, sumVals_incr]
    omega

lemma types_sum (records : List CommitRecord) (acc : StatsAcc) :
    sumVals ((records.foldl statsStep acc).commitTypes) =
      sumVals acc.commitTypes +
        (records.filter fun r => matchesTypePattern (msgOf r)).length := by
  induction records generalizing acc with
  | nil => simp
  | cons r rest ih =>
    simp only [List.foldl_cons, ih, List.filter_cons]
    by_cases h : matchesTypePattern (msgOf r) = true
    · simp [statsStep, h, sumVals_incr]
      omega
    · simp [statsStep, h]

lemma scopes_sum (records : List CommitRecord) (acc : StatsAcc) :
    sumVals ((records.foldl statsStep acc).commonScopes) =
      sumVals acc.commonScopes +
        (records.filter fun r => matchesScopePattern (msgOf r)).length := by
  induction records generalizing acc with
  | nil => simp
  | cons r rest ih =>
    simp only [List.foldl_cons, ih, List.filter_cons]
    rcases h : scopeCapture (msgOf r) with _ | b
    · simp [statsStep, h, matchesScopePattern]
    · simp [statsStep, h, matchesScopePattern, sumVals_incr]
      omega

lemma authors_sum (records : List CommitRecord) (acc : StatsAcc) :
    sumRawAuthor ((records.foldl statsStep acc).authorStats) =
      sumRawAuthor acc.authorStats +
        (records.filter fun r => r.author_name != "").length := by
  induction records generalizing acc with
  | nil => simp
  | cons r rest ih =>
    simp only [List.foldl_cons, ih, List.filter_cons]
    by_cases h : r.author_name = ""
    · simp [statsStep, h]
    · simp [statsStep, h, sumRaw_bumpAuthor]
      omega

lemma sumAuthor_finalize (m : List (String × Nat × List Nat)) :
    sumAuthorCommits (finalizeAuthors m) = sumRawAuthor m := by
  induction m with
  | nil => rfl
  | cons e rest ih => simp [finalizeAuthors, sumAuthorCommits, sumRawAuthor] at ih ⊢; omega

/-- C9: every statistics report is consistent with its totals — the daily
and hourly frequency values each sum to `totalCommits`, the per-author
commit counts sum to the number of records with a non-empty author name, and
the type and scope frequency values sum to the numbers of records whose
trimmed message matches the type regex and the scope regex respectively. -/
theorem c9_claim (records : List CommitRecord) :
    sumVals (generateCommitStatistics records).dailyCommits = records.length ∧
      sumVals (generateCommitStatistics records).hourlyCommits = records.length ∧
      sumAuthorCommits (generateCommitStatistics records).authorStats =
        (records.filter fun r => r.author_name != "").length ∧
      sumVals (generateCommitStatistics records).commitTypes =
        (records.filter fun r => matchesTypePattern (msgOf r)).length ∧
      sumVals (generateCommitStatistics records).commonScopes =
        (records.filter fun r => matchesScopePattern (msgOf r)).length := by
  have hd : (generateCommitStatistics records).dailyCommits =
      (records.foldl statsStep emptyAcc).dailyCommits := rfl
  have hh : (generateCommitStatistics records).hourlyCommits =
      (records.foldl statsStep emptyAcc).hourlyCommits := rfl
  have ha : (generateCommitStatistics records).authorStats =
      finalizeAuthors (records.foldl statsStep emptyAcc).authorStats := rfl
  have ht : (generateCommitStatistics records).commitTypes =
      (records.foldl statsStep emptyAcc).commitTypes := rfl
  have hs : (generateCommitStatistics records).commonScopes =
      (records.foldl statsStep emptyAcc).commonScopes := rfl
  refine ⟨?_, ?_, ?_, ?_, ?_⟩
  · rw [hd, daily_sum]
    simp [emptyAcc, sumVals]
  · rw [hh, hourly_sum]
    simp [emptyAcc, sumVals]
  · rw [ha, sumAuthor_finalize, authors_sum]
    simp [emptyAcc, sumRawAuthor]
  · rw [ht, types_sum]
    simp [emptyAcc, sumVals]
  · rw [hs, scopes_sum]
    simp [emptyAcc, sumVals]

end SmartCommitter
